import Mathlib

/-!
Verification of the two-tier concurrent map (`sync/map.go`) under sequential
execution.  Entries are modelled as heap cells (`Nat` ids) holding one of the
three states `pending` (the Go `nil` pointer), `expunged`, or `live v`; the
read snapshot and the dirty overlay are association lists of `(key, entry id)`
pairs sharing the heap, so that a CAS on an entry is visible through both
maps, exactly as the shared `*entry` pointers are in the source.  A `none`
result of a fallible operation models a Go runtime panic (nil-map assignment
or nil-entry dereference).
-/

namespace SyncMap

/-- The three states of `entry.p`: `nil`, the `expunged` sentinel, or a
pointer to a value. -/
inductive EntryState (V : Type) where
  | pending
  | expunged
  | live (v : V)
  deriving DecidableEq

/-- Entry heap: entry id to entry state. -/
abbrev Heap (V : Type) := Nat → EntryState V

/-- Write one heap cell. -/
def hset {V : Type} (h : Heap V) (e : Nat) (st : EntryState V) : Heap V :=
  fun j => if j = e then st else h j

/-- Association-list lookup, modelling Go map indexing (`m[k]`). -/
def alookup {K α : Type} [DecidableEq K] : List (K × α) → K → Option α
  | [], _ => none
  | (k', v) :: rest, k => if k = k' then some v else alookup rest k

/-- Remove every pair with the given key, modelling `delete(m, k)`. -/
def aerase {K α : Type} [DecidableEq K] : List (K × α) → K → List (K × α)
  | [], _ => []
  | (k', v) :: rest, k => if k' = k then aerase rest k else (k', v) :: aerase rest k

/-- Go map assignment `m[k] = v`. -/
def ainsert {K α : Type} [DecidableEq K] (l : List (K × α)) (k : K) (v : α) : List (K × α) :=
  (k, v) :: aerase l k

/-- A well-formed association list has pairwise distinct keys (every Go map
does). -/
def keysNodup {K α : Type} (l : List (K × α)) : Prop :=
  (l.map Prod.fst).Nodup

/-- State of the `Map` struct.  `readM`/`amended` are the current `readOnly`,
`dirty = none` models the nil dirty map, `misses` the miss counter, `heap`
the shared entry cells and `next` the allocator for fresh entry ids. -/
structure MapState (K V : Type) where
  readM : List (K × Nat)
  amended : Bool
  dirty : Option (List (K × Nat))
  misses : Nat
  heap : Heap V
  next : Nat

/-- `len(m.dirty)` — 0 for the nil map. -/
def dsize {K V : Type} (s : MapState K V) : Nat :=
  (s.dirty.getD []).length

/-- `entry.load`. -/
def entry.load {V : Type} (h : Heap V) (e : Nat) : Option V × Bool :=
  match h e with
  | .live v => (some v, true)
  | _ => (none, false)

/-- `entry.delete`: CAS loop from `live v` to `nil`; sequentially the first
CAS succeeds. -/
def entry.delete {V : Type} (h : Heap V) (e : Nat) : (Option V × Bool) × Heap V :=
  match h e with
  | .live v => ((some v, true), hset h e .pending)
  | _ => ((none, false), h)

/-- `entry.tryStore`: fails iff the entry is expunged. -/
def entry.tryStore {V : Type} (h : Heap V) (e : Nat) (v : V) : Bool × Heap V :=
  match h e with
  | .expunged => (false, h)
  | _ => (true, hset h e (.live v))

/-- `entry.unexpungeLocked`: CAS `expunged → nil`. -/
def entry.unexpungeLocked {V : Type} (h : Heap V) (e : Nat) : Bool × Heap V :=
  match h e with
  | .expunged => (true, hset h e .pending)
  | _ => (false, h)

/-- `entry.storeLocked`: unconditional store of a live value. -/
def entry.storeLocked {V : Type} (h : Heap V) (e : Nat) (v : V) : Heap V :=
  hset h e (.live v)

/-- `entry.tryExpungeLocked`: CAS `nil → expunged`; reports whether the entry
ends up expunged. -/
def entry.tryExpungeLocked {V : Type} (h : Heap V) (e : Nat) : Bool × Heap V :=
  match h e with
  | .pending => (true, hset h e .expunged)
  | .expunged => (true, h)
  | .live _ => (false, h)

/-- `newEntry(v)` allocated at cell `n`. -/
def newEntry {V : Type} (h : Heap V) (n : Nat) (v : V) : Heap V :=
  hset h n (.live v)

/-- `Map.missLocked`: bump the miss counter, promoting the dirty overlay to
the read snapshot once the counter reaches the overlay size. -/
def Map.missLocked {K V : Type} (s : MapState K V) : MapState K V :=
  if s.misses + 1 < dsize s then { s with misses := s.misses + 1 }
  else { s with readM := s.dirty.getD [], amended := false, dirty := none, misses := 0 }

/-- The loop body of `Map.dirtyLocked`: expunge the deleted entries of the
read snapshot and copy the surviving pairs into the fresh dirty map. -/
def buildDirty {K V : Type} [DecidableEq K] : List (K × Nat) → Heap V → List (K × Nat) × Heap V
  | [], h => ([], h)
  | (k, e) :: rest, h =>
    match entry.tryExpungeLocked h e with
    | (true, h1) => buildDirty rest h1
    | (false, h1) =>
      let p := buildDirty rest h1
      ((k, e) :: p.1, p.2)

/-- `Map.dirtyLocked`: build the dirty overlay from the read snapshot when it
does not exist yet. -/
def Map.dirtyLocked {K V : Type} [DecidableEq K] (s : MapState K V) : MapState K V :=
  match s.dirty with
  | some _ => s
  | none =>
    let p := buildDirty s.readM s.heap
    { s with dirty := some p.1, heap := p.2 }

/-- `Map.Load`.  The double-checked re-read of `m.read` is the identity under
sequential execution, so the locked section reduces to the dirty lookup plus
`missLocked`. -/
def Map.Load {K V : Type} [DecidableEq K] (s : MapState K V) (k : K) :
    (Option V × Bool) × MapState K V :=
  match alookup s.readM k with
  | some e => (entry.load s.heap e, s)
  | none =>
    if s.amended then
      match alookup (s.dirty.getD []) k with
      | some e => (entry.load (Map.missLocked s).heap e, Map.missLocked s)
      | none => ((none, false), Map.missLocked s)
    else ((none, false), s)

/-- The locked slow path of `Map.Store` (everything after `m.mu.Lock()`);
`none` models the panic of assigning into a nil dirty map. -/
def Map.storeSlow {K V : Type} [DecidableEq K] (s : MapState K V) (k : K) (v : V) :
    Option (MapState K V) :=
  match alookup s.readM k with
  | some e =>
    match entry.unexpungeLocked s.heap e with
    | (true, h) =>
      match s.dirty with
      | none => none
      | some d => some { s with dirty := some (ainsert d k e), heap := entry.storeLocked h e v }
    | (false, _) => some { s with heap := entry.storeLocked s.heap e v }
  | none =>
    match alookup (s.dirty.getD []) k with
    | some e => some { s with heap := entry.storeLocked s.heap e v }
    | none =>
      if s.amended then
        match s.dirty with
        | none => none
        | some d =>
          some { s with dirty := some (ainsert d k s.next),
                        heap := newEntry s.heap s.next v, next := s.next + 1 }
      else
        match (Map.dirtyLocked s).dirty with
        | none => none
        | some d =>
          some { Map.dirtyLocked s with
                   amended := true,
                   dirty := some (ainsert d k s.next),
                   heap := newEntry (Map.dirtyLocked s).heap s.next v,
                   next := s.next + 1 }

/-- `Map.Store`: lock-free `tryStore` on a read-snapshot hit, otherwise the
locked slow path. -/
def Map.Store {K V : Type} [DecidableEq K] (s : MapState K V) (k : K) (v : V) :
    Option (MapState K V) :=
  match alookup s.readM k with
  | some e =>
    match entry.tryStore s.heap e v with
    | (true, h) => some { s with heap := h }
    | (false, _) => Map.storeSlow s k v
  | none => Map.storeSlow s k v

/-- `Map.LoadAndDelete`, exactly as written in the source: the final test is
`if !ok { return e.delete() }`, so a key that was found is answered with
`(nil, false)` and no entry deletion, while a key found nowhere dereferences
the nil entry pointer — result `none` models that panic.  The state component
is the state after the (possibly entered) locked section. -/
def Map.LoadAndDelete {K V : Type} [DecidableEq K] (s : MapState K V) (k : K) :
    Option (Option V × Bool) × MapState K V :=
  match alookup s.readM k with
  | some _ => (some (none, false), s)
  | none =>
    if s.amended then
      match alookup (s.dirty.getD []) k with
      | some _ =>
        (some (none, false), Map.missLocked { s with dirty := (s.dirty).map (fun d => aerase d k) })
      | none =>
        (none, Map.missLocked { s with dirty := (s.dirty).map (fun d => aerase d k) })
    else (none, s)

/-- `Map.Delete` simply discards `LoadAndDelete`'s value. -/
def Map.Delete {K V : Type} [DecidableEq K] (s : MapState K V) (k : K) :
    Option (MapState K V) :=
  match Map.LoadAndDelete s k with
  | (some _, s') => some s'
  | (none, _) => none

/-- The zero `Map`: empty nil read map, not amended, nil dirty, zero misses. -/
def initState (K V : Type) : MapState K V :=
  { readM := [], amended := false, dirty := none, misses := 0,
    heap := fun _ => .pending, next := 0 }

/-- One public operation of the facade. -/
inductive Op (K V : Type) where
  | load (k : K)
  | store (k : K) (v : V)
  | loadAndDelete (k : K)
  | delete (k : K)

/-- Run one public operation; `none` when the operation panics. -/
def runOp {K V : Type} [DecidableEq K] : Op K V → MapState K V → Option (MapState K V)
  | .load k, s => some (Map.Load s k).2
  | .store k v, s => Map.Store s k v
  | .loadAndDelete k, s =>
    match Map.LoadAndDelete s k with
    | (some _, s') => some s'
    | (none, _) => none
  | .delete k, s => Map.Delete s k

/-- States reachable from the zero map by completed (non-panicking) public
operations. -/
inductive Reachable {K V : Type} [DecidableEq K] : MapState K V → Prop where
  | init : Reachable (initState K V)
  | step {s s' : MapState K V} {op : Op K V} :
      Reachable s → runOp op s = some s' → Reachable s'

/-! ### Association-list lemmas -/

theorem hset_same {V : Type} (h : Heap V) (e : Nat) (st : EntryState V) :
    hset h e st e = st := by
  simp [hset]

theorem hset_other {V : Type} (h : Heap V) (e j : Nat) (st : EntryState V) (hj : j ≠ e) :
    hset h e st j = h j := by
  simp [hset, hj]

theorem alookup_eq_none {K α : Type} [DecidableEq K] {l : List (K × α)} {k : K} :
    alookup l k = none ↔ k ∉ l.map Prod.fst := by
  induction l with
  | nil => simp [alookup]
  | cons p rest ih =>
    obtain ⟨k', v⟩ := p
    by_cases hk : k = k' <;> simp [alookup, hk, ih]

theorem mem_of_alookup {K α : Type} [DecidableEq K] {l : List (K × α)} {k : K} {v : α}
    (h : alookup l k = some v) : (k, v) ∈ l := by
  induction l with
  | nil => simp [alookup] at h
  | cons p rest ih =>
    obtain ⟨k', v'⟩ := p
    by_cases hk : k = k'
    · subst hk
      simp [alookup] at h
      simp [h]
    · simp [alookup, hk] at h
      exact List.mem_cons_of_mem _ (ih h)

theorem alookup_unique {K α : Type} [DecidableEq K] {l : List (K × α)} {k : K} {a b : α}
    (hn : keysNodup l) (ha : (k, a) ∈ l) (hb : (k, b) ∈ l) : a = b := by
  induction l with
  | nil => simp at ha
  | cons p rest ih =>
    obtain ⟨k', v'⟩ := p
    have hn' : k' ∉ rest.map Prod.fst ∧ keysNodup rest := by
      simpa [keysNodup] using hn
    rcases List.mem_cons.1 ha with ha1 | ha2
    · rcases List.mem_cons.1 hb with hb1 | hb2
      · rw [Prod.mk.injEq] at ha1 hb1
        rw [ha1.2, hb1.2]
      · exfalso
        rw [Prod.mk.injEq] at ha1
        exact hn'.1 (ha1.1 ▸ (List.mem_map.2 ⟨(k, b), hb2, rfl⟩))
    · rcases List.mem_cons.1 hb with hb1 | hb2
      · exfalso
        rw [Prod.mk.injEq] at hb1
        exact hn'.1 (hb1.1 ▸ (List.mem_map.2 ⟨(k, a), ha2, rfl⟩))
      · exact ih hn'.2 ha2 hb2

theorem aerase_of_none {K α : Type} [DecidableEq K] {l : List (K × α)} {k : K}
    (h : alookup l k = none) : aerase l k = l := by
  induction l with
  | nil => rfl
  | cons p rest ih =>
    obtain ⟨k', v'⟩ := p
    by_cases hk : k = k'
    · simp [alookup, hk] at h
    · have hk' : k' ≠ k := fun hx => hk hx.symm
      simp [alookup, hk] at h
      simp [aerase, hk', ih h]

theorem alookup_aerase_self {K α : Type} [DecidableEq K] (l : List (K × α)) (k : K) :
    alookup (aerase l k) k = none := by
  induction l with
  | nil => rfl
  | cons p rest ih =>
    obtain ⟨k', v'⟩ := p
    by_cases hk : k' = k
    · simp [aerase, hk, ih]
    · have hk' : k ≠ k' := fun hx => hk hx.symm
      simp [aerase, hk, alookup, hk', ih]

theorem alookup_ainsert_self {K α : Type} [DecidableEq K] (l : List (K × α)) (k : K) (v : α) :
    alookup (ainsert l k v) k = some v := by
  simp [ainsert, alookup]

theorem aerase_keys_sublist {K α : Type} [DecidableEq K] (l : List (K × α)) (k : K) :
    List.Sublist ((aerase l k).map Prod.fst) (l.map Prod.fst) := by
  induction l with
  | nil => simp [aerase]
  | cons p rest ih =>
    obtain ⟨k', v'⟩ := p
    by_cases hk : k' = k
    · simpa [aerase, hk] using ih.cons _
    · simpa [aerase, hk] using ih.cons₂ k'

theorem keysNodup_aerase {K α : Type} [DecidableEq K] {l : List (K × α)} (k : K)
    (hn : keysNodup l) : keysNodup (aerase l k) :=
  (aerase_keys_sublist l k).nodup hn

theorem keysNodup_ainsert {K α : Type} [DecidableEq K] {l : List (K × α)} (k : K) (v : α)
    (hn : keysNodup l) : keysNodup (ainsert l k v) := by
  refine List.nodup_cons.2 ⟨?_, keysNodup_aerase k hn⟩
  exact alookup_eq_none.1 (alookup_aerase_self l k)

theorem length_le_ainsert {K α : Type} [DecidableEq K] {l : List (K × α)} (k : K) (v : α)
    (hn : keysNodup l) : l.length ≤ (ainsert l k v).length := by
  induction l with
  | nil => simp [ainsert, aerase]
  | cons p rest ih =>
    obtain ⟨k', v'⟩ := p
    have hn' : k' ∉ rest.map Prod.fst ∧ keysNodup rest := by
      simpa [keysNodup] using hn
    by_cases hk : k' = k
    · subst hk
      have : aerase rest k' = rest := aerase_of_none (alookup_eq_none.2 hn'.1)
      simp [ainsert, aerase, this]
    · have := ih hn'.2
      simp only [ainsert, List.length_cons] at this ⊢
      simp only [aerase, hk, if_false, List.length_cons]
      omega

/-! ### `buildDirty` lemmas -/

theorem buildDirty_live {K V : Type} [DecidableEq K] {l : List (K × Nat)} {h : Heap V}
    {e : Nat} {v : V} (hl : h e = .live v) : (buildDirty l h).2 e = .live v := by
  induction l generalizing h with
  | nil => exact hl
  | cons p rest ih =>
    obtain ⟨k0, e0⟩ := p
    cases hc : h e0 with
    | pending =>
      have he : e ≠ e0 := fun hx => by rw [hx, hc] at hl; cases hl
      simp only [buildDirty, entry.tryExpungeLocked, hc]
      exact ih (by rw [hset_other _ _ _ _ he]; exact hl)
    | expunged =>
      simp only [buildDirty, entry.tryExpungeLocked, hc]
      exact ih hl
    | live v0 =>
      simp only [buildDirty, entry.tryExpungeLocked, hc]
      exact ih hl

theorem buildDirty_expunged {K V : Type} [DecidableEq K] {l : List (K × Nat)} {h : Heap V}
    {e : Nat} (hl : h e = .expunged) : (buildDirty l h).2 e = .expunged := by
  induction l generalizing h with
  | nil => exact hl
  | cons p rest ih =>
    obtain ⟨k0, e0⟩ := p
    cases hc : h e0 with
    | pending =>
      have he : e ≠ e0 := fun hx => by rw [hx, hc] at hl; cases hl
      simp only [buildDirty, entry.tryExpungeLocked, hc]
      exact ih (by rw [hset_other _ _ _ _ he]; exact hl)
    | expunged =>
      simp only [buildDirty, entry.tryExpungeLocked, hc]
      exact ih hl
    | live v0 =>
      simp only [buildDirty, entry.tryExpungeLocked, hc]
      exact ih hl

theorem buildDirty_pending_mem {K V : Type} [DecidableEq K] {l : List (K × Nat)} {h : Heap V}
    {k : K} {e : Nat} (hm : (k, e) ∈ l) (hp : h e = .pending) :
    (buildDirty l h).2 e = .expunged := by
  induction l generalizing h with
  | nil => simp at hm
  | cons p rest ih =>
    obtain ⟨k0, e0⟩ := p
    rcases List.mem_cons.1 hm with hh | ht
    · rw [Prod.mk.injEq] at hh
      rw [← hh.2] at *
      simp only [buildDirty, entry.tryExpungeLocked, hp]
      exact buildDirty_expunged (hset_same h e .expunged)
    · cases hc : h e0 with
      | pending =>
        by_cases he : e = e0
        · rw [he] at hp ⊢
          simp only [buildDirty, entry.tryExpungeLocked, hc]
          exact buildDirty_expunged (hset_same h e0 .expunged)
        · simp only [buildDirty, entry.tryExpungeLocked, hc]
          exact ih ht (by rw [hset_other _ _ _ _ he]; exact hp)
      | expunged =>
        simp only [buildDirty, entry.tryExpungeLocked, hc]
        exact ih ht hp
      | live v0 =>
        simp only [buildDirty, entry.tryExpungeLocked, hc]
        exact ih ht hp

theorem buildDirty_mem {K V : Type} [DecidableEq K] {l : List (K × Nat)} {h : Heap V}
    {k : K} {e : Nat} (hm : (k, e) ∈ (buildDirty l h).1) :
    (k, e) ∈ l ∧ ∃ v, (buildDirty l h).2 e = .live v := by
  induction l generalizing h with
  | nil => simp [buildDirty] at hm
  | cons p rest ih =>
    obtain ⟨k0, e0⟩ := p
    cases hc : h e0 with
    | pending =>
      simp only [buildDirty, entry.tryExpungeLocked, hc] at hm ⊢
      exact ⟨List.mem_cons_of_mem _ (ih hm).1, (ih hm).2⟩
    | expunged =>
      simp only [buildDirty, entry.tryExpungeLocked, hc] at hm ⊢
      exact ⟨List.mem_cons_of_mem _ (ih hm).1, (ih hm).2⟩
    | live v0 =>
      simp only [buildDirty, entry.tryExpungeLocked, hc] at hm ⊢
      rcases List.mem_cons.1 hm with hh | ht
      · rw [Prod.mk.injEq] at hh
        refine ⟨List.mem_cons.2 (Or.inl (by rw [Prod.mk.injEq]; exact hh)), v0, ?_⟩
        rw [hh.2]
        exact buildDirty_live hc
      · exact ⟨List.mem_cons_of_mem _ (ih ht).1, (ih ht).2⟩

theorem buildDirty_keys_sublist {K V : Type} [DecidableEq K] (l : List (K × Nat)) (h : Heap V) :
    List.Sublist ((buildDirty l h).1.map Prod.fst) (l.map Prod.fst) := by
  induction l generalizing h with
  | nil => simp [buildDirty]
  | cons p rest ih =>
    obtain ⟨k0, e0⟩ := p
    cases hc : h e0 with
    | pending =>
      simp only [buildDirty, entry.tryExpungeLocked, hc]
      exact (ih _).cons k0
    | expunged =>
      simp only [buildDirty, entry.tryExpungeLocked, hc]
      exact (ih _).cons k0
    | live v0 =>
      simp only [buildDirty, entry.tryExpungeLocked, hc, List.map_cons]
      exact (ih _).cons₂ k0

theorem buildDirty_copy {K V : Type} [DecidableEq K] {l : List (K × Nat)} {h : Heap V}
    {k : K} {e : Nat} {v : V} (hl : alookup l k = some e) (hv : h e = .live v) :
    alookup (buildDirty l h).1 k = some e := by
  induction l generalizing h with
  | nil => simp [alookup] at hl
  | cons p rest ih =>
    obtain ⟨k0, e0⟩ := p
    by_cases hk : k = k0
    · subst hk
      simp [alookup] at hl
      subst hl
      simp [buildDirty, entry.tryExpungeLocked, hv, alookup]
    · simp only [alookup, if_neg hk] at hl
      cases hc : h e0 with
      | pending =>
        have he : e ≠ e0 := fun hx => by rw [hx, hc] at hv; cases hv
        simp only [buildDirty, entry.tryExpungeLocked, hc]
        exact ih hl (by rw [hset_other _ _ _ _ he]; exact hv)
      | expunged =>
        simp only [buildDirty, entry.tryExpungeLocked, hc]
        exact ih hl hv
      | live v0 =>
        simp only [buildDirty, entry.tryExpungeLocked, hc, alookup, if_neg hk]
        exact ih hl hv

theorem buildDirty_drop {K V : Type} [DecidableEq K] {l : List (K × Nat)} {h : Heap V}
    {k : K} {e : Nat} (hn : keysNodup l) (hl : alookup l k = some e) (hp : h e = .pending) :
    alookup (buildDirty l h).1 k = none := by
  cases hx : alookup (buildDirty l h).1 k with
  | none => rfl
  | some e2 =>
    exfalso
    have hm2 := buildDirty_mem (mem_of_alookup hx)
    have heq : e2 = e := alookup_unique hn hm2.1 (mem_of_alookup hl)
    obtain ⟨v, hv⟩ := hm2.2
    rw [heq] at hv
    rw [buildDirty_pending_mem (mem_of_alookup hl) hp] at hv
    cases hv

/-! ### Facade component lemmas -/

theorem missLocked_heap {K V : Type} (s : MapState K V) :
    (Map.missLocked s).heap = s.heap := by
  unfold Map.missLocked
  split <;> rfl

theorem missLocked_next {K V : Type} (s : MapState K V) :
    (Map.missLocked s).next = s.next := by
  unfold Map.missLocked
  split <;> rfl

theorem dirtyLocked_readM {K V : Type} [DecidableEq K] (s : MapState K V) :
    (Map.dirtyLocked s).readM = s.readM := by
  unfold Map.dirtyLocked
  split <;> rfl

theorem dirtyLocked_next {K V : Type} [DecidableEq K] (s : MapState K V) :
    (Map.dirtyLocked s).next = s.next := by
  unfold Map.dirtyLocked
  split <;> rfl

theorem dirtyLocked_none_eq {K V : Type} [DecidableEq K] {s : MapState K V}
    (hd : s.dirty = none) :
    Map.dirtyLocked s = { s with dirty := some (buildDirty s.readM s.heap).1,
                                 heap := (buildDirty s.readM s.heap).2 } := by
  unfold Map.dirtyLocked
  rw [hd]

/-! ### The reachable-state invariant -/

/-- Structural invariant of reachable map states: both layers are genuine
maps (distinct keys), the miss counter never exceeds the dirty size, and the
read snapshot is amended exactly when the dirty map is non-nil. -/
def Inv {K V : Type} (s : MapState K V) : Prop :=
  keysNodup s.readM ∧ (∀ d, s.dirty = some d → keysNodup d) ∧
    s.misses ≤ dsize s ∧ (s.amended = true ↔ s.dirty ≠ none)

theorem inv_init {K V : Type} : Inv (initState K V) := by
  refine ⟨?_, ?_, ?_, ?_⟩ <;> simp [initState, keysNodup, dsize]

theorem inv_missLocked {K V : Type} {s : MapState K V}
    (h1 : keysNodup s.readM) (h2 : ∀ d, s.dirty = some d → keysNodup d)
    (h4 : s.amended = true ↔ s.dirty ≠ none) : Inv (Map.missLocked s) := by
  unfold Map.missLocked
  split
  · next hlt =>
    exact ⟨h1, h2, by simpa [dsize] using Nat.le_of_lt hlt, h4⟩
  · refine ⟨?_, ?_, ?_, ?_⟩
    · cases hd : s.dirty with
      | none => simp [hd, keysNodup]
      | some d => simpa [hd] using h2 d hd
    · simp
    · simp [dsize]
    · simp

theorem inv_load {K V : Type} [DecidableEq K] {s : MapState K V} (k : K)
    (hi : Inv s) : Inv (Map.Load s k).2 := by
  obtain ⟨rm, am, dt, ms, hp, nx⟩ := s
  obtain ⟨h1, h2, h3, h4⟩ := hi
  rcases hkr : alookup rm k with _ | e
  · cases am with
    | false =>
      simp only [Map.Load, hkr]
      rw [if_neg (by simp)]
      exact ⟨h1, h2, h3, h4⟩
    | true =>
      simp only [Map.Load, hkr]
      rw [if_pos trivial]
      rcases halo : alookup (dt.getD []) k with _ | e <;> simp only [halo] <;>
        exact inv_missLocked h1 h2 h4
  · simp only [Map.Load, hkr]
    exact ⟨h1, h2, h3, h4⟩

theorem inv_storeSlow {K V : Type} [DecidableEq K] {s s' : MapState K V} {k : K} {v : V}
    (hi : Inv s) (hs : Map.storeSlow s k v = some s') : Inv s' := by
  obtain ⟨rm, am, dt, ms, hp, nx⟩ := s
  obtain ⟨h1, h2, h3, h4⟩ := hi
  simp only [Map.storeSlow] at hs
  rcases hkr : alookup rm k with _ | e
  · simp only [hkr] at hs
    rcases halo : alookup (dt.getD []) k with _ | e
    · simp only [halo] at hs
      cases am with
      | true =>
        rw [if_pos rfl] at hs
        rcases dt with _ | d
        · cases hs
        · rw [Option.some.injEq] at hs
          subst hs
          refine ⟨h1, ?_, ?_, by simp⟩
          · intro d' hd'
            injection hd' with hd'
            subst hd'
            exact keysNodup_ainsert k nx (h2 d rfl)
          · have h3' : ms ≤ d.length := by simpa [dsize] using h3
            simpa [dsize] using le_trans h3' (length_le_ainsert k nx (h2 d rfl))
      | false =>
        rw [if_neg (by simp)] at hs
        have hd : dt = none := by
          rcases dt with _ | d
          · rfl
          · exact absurd (h4.mpr (by simp)) (by simp)
        subst hd
        rw [dirtyLocked_none_eq rfl] at hs
        simp only [Option.some.injEq] at hs
        subst hs
        have hbn : keysNodup (buildDirty rm hp).1 :=
          (buildDirty_keys_sublist rm hp).nodup h1
        refine ⟨h1, ?_, ?_, by simp⟩
        · intro d' hd'
          injection hd' with hd'
          subst hd'
          exact keysNodup_ainsert k nx hbn
        · have h30 : ms = 0 := by simpa [dsize] using h3
          simp [dsize, h30]
    · simp only [halo, Option.some.injEq] at hs
      subst hs
      exact ⟨h1, h2, by simpa [dsize] using h3, h4⟩
  · simp only [hkr] at hs
    cases hh : hp e with
    | expunged =>
      simp only [entry.unexpungeLocked, hh] at hs
      rcases dt with _ | d
      · cases hs
      · rw [Option.some.injEq] at hs
        subst hs
        refine ⟨h1, ?_, ?_, ?_⟩
        · intro d' hd'
          injection hd' with hd'
          subst hd'
          exact keysNodup_ainsert k e (h2 d rfl)
        · have h3' : ms ≤ d.length := by simpa [dsize] using h3
          simpa [dsize] using le_trans h3' (length_le_ainsert k e (h2 d rfl))
        · constructor
          · intro _; simp
          · intro _; exact h4.mpr (by simp)
    | pending =>
      simp only [entry.unexpungeLocked, hh, Option.some.injEq] at hs
      subst hs
      exact ⟨h1, h2, by simpa [dsize] using h3, h4⟩
    | live v0 =>
      simp only [entry.unexpungeLocked, hh, Option.some.injEq] at hs
      subst hs
      exact ⟨h1, h2, by simpa [dsize] using h3, h4⟩

theorem inv_store {K V : Type} [DecidableEq K] {s s' : MapState K V} {k : K} {v : V}
    (hi : Inv s) (hs : Map.Store s k v = some s') : Inv s' := by
  obtain ⟨h1, h2, h3, h4⟩ := hi
  unfold Map.Store at hs
  cases hkr : alookup s.readM k with
  | some e =>
    rw [hkr] at hs
    cases hh : s.heap e with
    | expunged =>
      simp only [entry.tryStore, hh] at hs
      exact inv_storeSlow ⟨h1, h2, h3, h4⟩ hs
    | pending =>
      simp only [entry.tryStore, hh] at hs
      rw [Option.some.injEq] at hs
      subst hs
      exact ⟨h1, h2, by simpa [dsize] using h3, h4⟩
    | live v0 =>
      simp only [entry.tryStore, hh] at hs
      rw [Option.some.injEq] at hs
      subst hs
      exact ⟨h1, h2, by simpa [dsize] using h3, h4⟩
  | none =>
    rw [hkr] at hs
    exact inv_storeSlow ⟨h1, h2, h3, h4⟩ hs

theorem inv_loadAndDelete {K V : Type} [DecidableEq K] {s : MapState K V} (k : K)
    (hi : Inv s) : Inv (Map.LoadAndDelete s k).2 := by
  obtain ⟨rm, am, dt, ms, hp, nx⟩ := s
  obtain ⟨h1, h2, h3, h4⟩ := hi
  rcases hkr : alookup rm k with _ | e
  · cases am with
    | false =>
      simp only [Map.LoadAndDelete, hkr]
      rw [if_neg (by simp)]
      exact ⟨h1, h2, h3, h4⟩
    | true =>
      simp only [Map.LoadAndDelete, hkr]
      rw [if_pos trivial]
      have hmain : Inv (Map.missLocked
          (⟨rm, true, dt.map (fun d => aerase d k), ms, hp, nx⟩ : MapState K V)) := by
        apply inv_missLocked
        · exact h1
        · intro d' hd'
          rcases dt with _ | d
          · cases hd'
          · injection hd' with hd'
            subst hd'
            exact keysNodup_aerase k (h2 d rfl)
        · rcases dt with _ | d
          · exact absurd rfl (h4.mp rfl)
          · simp
      rcases halo : alookup (dt.getD []) k with _ | e <;> simp only [halo] <;> exact hmain
  · simp only [Map.LoadAndDelete, hkr]
    exact ⟨h1, h2, h3, h4⟩

theorem inv_runOp {K V : Type} [DecidableEq K] {s s' : MapState K V} {op : Op K V}
    (hi : Inv s) (hop : runOp op s = some s') : Inv s' := by
  cases op with
  | load k =>
    simp only [runOp, Option.some.injEq] at hop
    subst hop
    exact inv_load k hi
  | store k v =>
    exact inv_store hi hop
  | loadAndDelete k =>
    simp only [runOp] at hop
    cases hl : Map.LoadAndDelete s k with
    | mk r t =>
      rw [hl] at hop
      cases r with
      | none => simp at hop
      | some r0 =>
        simp only [Option.some.injEq] at hop
        subst hop
        have := inv_loadAndDelete k hi
        rw [hl] at this
        exact this
  | delete k =>
    simp only [runOp, Map.Delete] at hop
    cases hl : Map.LoadAndDelete s k with
    | mk r t =>
      rw [hl] at hop
      cases r with
      | none => simp at hop
      | some r0 =>
        simp only [Option.some.injEq] at hop
        subst hop
        have := inv_loadAndDelete k hi
        rw [hl] at this
        exact this

theorem inv_reachable {K V : Type} [DecidableEq K] {s : MapState K V}
    (hr : Reachable s) : Inv s := by
  induction hr with
  | init => exact inv_init
  | step hpr hop ih => exact inv_runOp ih hop

/-! ### Further helpers -/

theorem buildDirty_not_live_drop {K V : Type} [DecidableEq K] {l : List (K × Nat)} {h : Heap V}
    {k : K} {e : Nat} (hn : keysNodup l) (hl : alookup l k = some e)
    (hx : (buildDirty l h).2 e = .expunged) : alookup (buildDirty l h).1 k = none := by
  cases hy : alookup (buildDirty l h).1 k with
  | none => rfl
  | some e2 =>
    exfalso
    have hm2 := buildDirty_mem (mem_of_alookup hy)
    have heq : e2 = e := alookup_unique hn hm2.1 (mem_of_alookup hl)
    obtain ⟨v, hv⟩ := hm2.2
    rw [heq, hx] at hv
    cases hv

theorem missLocked_frame {K V : Type} (s : MapState K V) :
    (Map.missLocked s).heap = s.heap ∧ (Map.missLocked s).next = s.next ∧
      (((Map.missLocked s).readM = s.readM ∧ (Map.missLocked s).dirty = s.dirty) ∨
        ((Map.missLocked s).readM = s.dirty.getD [] ∧ (Map.missLocked s).dirty = none)) := by
  unfold Map.missLocked
  split
  · exact ⟨rfl, rfl, Or.inl ⟨rfl, rfl⟩⟩
  · exact ⟨rfl, rfl, Or.inr ⟨rfl, rfl⟩⟩

/-! ### Claim theorems -/

/-- C6: `tryStore(value)` succeeds, transitioning the entry to `live value`,
exactly when the entry's current state is not `expunged`; on an expunged
entry it returns `false` and leaves every entry unchanged. -/
theorem C6_tryStore_spec {V : Type} (h : Heap V) (e : Nat) (v : V) :
    (h e = .expunged → entry.tryStore h e v = (false, h)) ∧
    (h e ≠ .expunged → entry.tryStore h e v = (true, hset h e (.live v))) := by
  constructor
  · intro hx
    simp [entry.tryStore, hx]
  · intro hx
    cases hc : h e with
    | pending => simp [entry.tryStore, hc]
    | expunged => exact absurd hc hx
    | live v0 => simp [entry.tryStore, hc]

/-- Witness for C6 at a concrete pending entry. -/
theorem C6_tryStore_spec_witness :
    entry.tryStore (fun _ => (EntryState.pending : EntryState Nat)) 0 3 =
      (true, hset (fun _ => EntryState.pending) 0 (.live 3)) :=
  (C6_tryStore_spec (fun _ => EntryState.pending) 0 3).2 (by decide)

/-- C7: when a key is absent from the read snapshot and the snapshot is not
amended, `Load` answers `(nil, false)` on the lock-free fast path with a
completely unchanged map state (in particular no miss is recorded and the
dirty overlay is never consulted). -/
theorem C7_load_fastpath_absent {K V : Type} [DecidableEq K] (s : MapState K V) (k : K)
    (h1 : alookup s.readM k = none) (h2 : s.amended = false) :
    Map.Load s k = ((none, false), s) := by
  simp [Map.Load, h1, h2]

/-- Witness for C7 on the empty initial map. -/
theorem C7_load_fastpath_absent_witness :
    Map.Load (initState Nat Nat) 0 = ((none, false), initState Nat Nat) :=
  C7_load_fastpath_absent (initState Nat Nat) 0 rfl rfl

/-- C10: `Load` never changes the state of any entry: the entry heap (and the
allocator) are untouched, and the only facade fields that may change are the
read snapshot handle, the dirty overlay reference and the miss counter, via
promotion inside `missLocked`. -/
theorem C10_load_frame {K V : Type} [DecidableEq K] (s : MapState K V) (k : K) :
    (Map.Load s k).2.heap = s.heap ∧ (Map.Load s k).2.next = s.next ∧
      (((Map.Load s k).2.readM = s.readM ∧ (Map.Load s k).2.dirty = s.dirty) ∨
        ((Map.Load s k).2.readM = s.dirty.getD [] ∧ (Map.Load s k).2.dirty = none)) := by
  rcases hkr : alookup s.readM k with _ | e
  · by_cases ham : s.amended = true
    · rcases halo : alookup (s.dirty.getD []) k with _ | e
      · have hload : Map.Load s k = ((none, false), Map.missLocked s) := by
          simp [Map.Load, hkr, ham, halo]
        rw [hload]
        exact missLocked_frame s
      · have hload : Map.Load s k = (entry.load (Map.missLocked s).heap e, Map.missLocked s) := by
          simp [Map.Load, hkr, ham, halo]
        rw [hload]
        exact missLocked_frame s
    · have hload : Map.Load s k = ((none, false), s) := by
        simp [Map.Load, hkr, ham]
      rw [hload]
      exact ⟨rfl, rfl, Or.inl ⟨rfl, rfl⟩⟩
  · have hload : Map.Load s k = (entry.load s.heap e, s) := by
      simp [Map.Load, hkr]
    rw [hload]
    exact ⟨rfl, rfl, Or.inl ⟨rfl, rfl⟩⟩

/-- C4: `missLocked` increments the miss counter and does nothing else while
the incremented counter is still strictly below the dirty overlay's size;
otherwise it promotes — the new read snapshot is exactly the dirty overlay
contents with the amended flag false, the overlay is cleared to nil and the
counter is reset to zero — and consequently every reachable state satisfies
misses ≤ size of the dirty overlay. -/
theorem C4_missLocked_promotion {K V : Type} [DecidableEq K] :
    (∀ s : MapState K V, s.misses + 1 < dsize s →
        Map.missLocked s = { s with misses := s.misses + 1 }) ∧
    (∀ s : MapState K V, ¬ (s.misses + 1 < dsize s) →
        Map.missLocked s =
          { s with readM := s.dirty.getD [], amended := false, dirty := none, misses := 0 }) ∧
    (∀ s : MapState K V, Reachable s → s.misses ≤ dsize s) := by
  refine ⟨?_, ?_, ?_⟩
  · intro s hlt
    simp [Map.missLocked, hlt]
  · intro s hge
    simp [Map.missLocked, hge]
  · intro s hr
    exact (inv_reachable hr).2.2.1

/-- A state one miss short of promotion. -/
def missWitA : MapState Nat Nat :=
  ⟨[], true, some [(0, 0), (1, 1)], 0, fun _ => .pending, 2⟩

/-- A state whose next miss triggers promotion. -/
def missWitB : MapState Nat Nat :=
  ⟨[], true, some [(0, 0)], 0, fun _ => .pending, 1⟩

/-- Witness for C4 at concrete states on both sides of the threshold, and the
invariant at the (reachable) initial state. -/
theorem C4_missLocked_promotion_witness :
    Map.missLocked missWitA = { missWitA with misses := 1 } ∧
    Map.missLocked missWitB =
      { missWitB with readM := missWitB.dirty.getD [], amended := false,
                      dirty := none, misses := 0 } ∧
    (initState Nat Nat).misses ≤ dsize (initState Nat Nat) := by
  refine ⟨?_, ?_, ?_⟩
  · exact C4_missLocked_promotion.1 missWitA (by decide)
  · exact C4_missLocked_promotion.2.1 missWitB (by decide)
  · exact C4_missLocked_promotion.2.2 (initState Nat Nat) Reachable.init

/-- C9: in every reachable state, an amended read snapshot implies a non-nil
dirty overlay: the flag is set only in the locked section that builds the
overlay, and promotion clears the overlay while publishing amended = false. -/
theorem C9_amended_dirty_nonnil {K V : Type} [DecidableEq K] (s : MapState K V)
    (hr : Reachable s) (ha : s.amended = true) : s.dirty ≠ none :=
  (inv_reachable hr).2.2.2.mp ha

/-- State after `Store(0, 1)` on the empty map: key 0 lives in the dirty
overlay and the read snapshot is amended. -/
def stA : MapState Nat Nat := (Map.Store (initState Nat Nat) 0 1).getD (initState Nat Nat)

/-- Witness for C9 at the reachable amended state `stA`. -/
theorem C9_amended_dirty_nonnil_witness : stA.dirty ≠ none := by
  have hrun : runOp (Op.store 0 1) (initState Nat Nat) = some stA := rfl
  exact C9_amended_dirty_nonnil stA (Reachable.step Reachable.init hrun) rfl

/-- C8: when `LoadAndDelete` takes the locked slow path (key absent from the
double-checked read snapshot, amended flag true), the key is deleted from the
dirty overlay map itself — whether or not it was present there — and a miss
is recorded through `missLocked`. -/
theorem C8_loadAndDelete_slowpath {K V : Type} [DecidableEq K] (s : MapState K V) (k : K)
    (h1 : alookup s.readM k = none) (h2 : s.amended = true) :
    (Map.LoadAndDelete s k).2 =
      Map.missLocked { s with dirty := s.dirty.map (fun d => aerase d k) } ∧
    (∀ d, s.dirty = some d → alookup (aerase d k) k = none) := by
  constructor
  · rcases halo : alookup (s.dirty.getD []) k with _ | e <;>
      simp [Map.LoadAndDelete, h1, h2, halo]
  · intro d _
    exact alookup_aerase_self d k

/-- An amended state whose overlay holds only key 5. -/
def ladWit : MapState Nat Nat :=
  ⟨[], true, some [(5, 0)], 0, fun _ => .pending, 1⟩

/-- Witness for C8 deleting the absent key 3 from the overlay. -/
theorem C8_loadAndDelete_slowpath_witness :
    (Map.LoadAndDelete ladWit 3).2 =
      Map.missLocked { ladWit with dirty := ladWit.dirty.map (fun d => aerase d 3) } ∧
    (∀ d, ladWit.dirty = some d → alookup (aerase d 3) 3 = none) :=
  C8_loadAndDelete_slowpath ladWit 3 rfl rfl

/-- C5: when the dirty overlay is rebuilt from scratch (`dirtyLocked` with a
nil overlay), every absent-pending entry of the read snapshot is transitioned
to expunged and excluded from the new overlay, already-expunged entries are
excluded as well, every live entry is copied in, and no key of the freshly
built overlay maps to an expunged entry. -/
theorem C5_dirtyLocked_fresh {K V : Type} [DecidableEq K] (s : MapState K V)
    (hd : s.dirty = none) (hn : keysNodup s.readM) :
    ∃ d, (Map.dirtyLocked s).dirty = some d ∧
      (∀ k e, alookup s.readM k = some e → s.heap e = .pending →
          (Map.dirtyLocked s).heap e = .expunged ∧ alookup d k = none) ∧
      (∀ k e, alookup s.readM k = some e → s.heap e = .expunged → alookup d k = none) ∧
      (∀ k e v, alookup s.readM k = some e → s.heap e = .live v → alookup d k = some e) ∧
      (∀ k e, alookup d k = some e → (Map.dirtyLocked s).heap e ≠ .expunged) := by
  refine ⟨(buildDirty s.readM s.heap).1, ?_, ?_, ?_, ?_, ?_⟩
  · rw [dirtyLocked_none_eq hd]
  · intro k e hk hp
    rw [dirtyLocked_none_eq hd]
    refine ⟨buildDirty_pending_mem (mem_of_alookup hk) hp, ?_⟩
    exact buildDirty_not_live_drop hn hk (buildDirty_pending_mem (mem_of_alookup hk) hp)
  · intro k e hk hx
    exact buildDirty_not_live_drop hn hk (buildDirty_expunged hx)
  · intro k e v hk hv
    exact buildDirty_copy hk hv
  · intro k e hk
    rw [dirtyLocked_none_eq hd]
    obtain ⟨-, v, hlv⟩ := buildDirty_mem (mem_of_alookup hk)
    show (buildDirty s.readM s.heap).2 e ≠ EntryState.expunged
    rw [hlv]
    intro hx
    cases hx

/-- A read snapshot with one pending, one live and one expunged entry, nil
overlay. -/
def freshWit : MapState Nat Nat :=
  ⟨[(0, 0), (1, 1), (2, 2)], false, none, 0,
    fun n => if n = 0 then .pending else if n = 1 then .live 7 else .expunged, 3⟩

/-- Witness for C5 at the concrete state `freshWit`. -/
theorem C5_dirtyLocked_fresh_witness :
    ∃ d, (Map.dirtyLocked freshWit).dirty = some d ∧
      (∀ k e, alookup freshWit.readM k = some e → freshWit.heap e = .pending →
          (Map.dirtyLocked freshWit).heap e = .expunged ∧ alookup d k = none) ∧
      (∀ k e, alookup freshWit.readM k = some e → freshWit.heap e = .expunged →
          alookup d k = none) ∧
      (∀ k e v, alookup freshWit.readM k = some e → freshWit.heap e = .live v →
          alookup d k = some e) ∧
      (∀ k e, alookup d k = some e → (Map.dirtyLocked freshWit).heap e ≠ .expunged) :=
  C5_dirtyLocked_fresh freshWit rfl
    (by show (freshWit.readM.map Prod.fst).Nodup; decide)

/-- C3: if `Store(k, v)` completes on a reachable state (its nil-map panics
cannot occur there) then an immediately following `Load(k)` returns
`(v, true)`. -/
theorem C3_store_then_load {K V : Type} [DecidableEq K] {s s' : MapState K V} {k : K} {v : V}
    (hr : Reachable s) (hs : Map.Store s k v = some s') :
    (Map.Load s' k).1 = (some v, true) := by
  have hinv := inv_reachable hr
  obtain ⟨rm, am, dt, ms, hp, nx⟩ := s
  obtain ⟨h1, h2, h3, h4⟩ := hinv
  rcases hkr : alookup rm k with _ | e
  · simp only [Map.Store, hkr, Map.storeSlow] at hs
    rcases halo : alookup (dt.getD []) k with _ | e
    · simp only [halo] at hs
      cases am with
      | true =>
        rw [if_pos rfl] at hs
        rcases dt with _ | d
        · cases hs
        · rw [Option.some.injEq] at hs
          subst hs
          have hlk : alookup (ainsert d k nx) k = some nx := alookup_ainsert_self d k nx
          simp [Map.Load, hkr, hlk, missLocked_heap, entry.load, newEntry, hset]
      | false =>
        rw [if_neg (by simp)] at hs
        have hdn : dt = none := by
          rcases dt with _ | d
          · rfl
          · exact absurd (h4.mpr (by simp)) (by simp)
        subst hdn
        rw [dirtyLocked_none_eq rfl] at hs
        simp only [Option.some.injEq] at hs
        subst hs
        have hlk : alookup (ainsert (buildDirty rm hp).1 k nx) k = some nx :=
          alookup_ainsert_self (buildDirty rm hp).1 k nx
        simp [Map.Load, hkr, hlk, missLocked_heap, entry.load, newEntry, hset]
    · simp only [halo, Option.some.injEq] at hs
      subst hs
      have ham : am = true := by
        rcases dt with _ | d
        · simp [alookup] at halo
        · exact h4.mpr (by simp)
      simp [Map.Load, hkr, ham, halo, missLocked_heap, entry.load, entry.storeLocked, hset]
  · simp only [Map.Store, hkr] at hs
    cases hh : hp e with
    | expunged =>
      simp only [entry.tryStore, hh] at hs
      simp only [Map.storeSlow, hkr, entry.unexpungeLocked, hh] at hs
      rcases dt with _ | d
      · cases hs
      · rw [Option.some.injEq] at hs
        subst hs
        simp [Map.Load, hkr, entry.load, entry.storeLocked, hset]
    | pending =>
      simp only [entry.tryStore, hh, Option.some.injEq] at hs
      subst hs
      simp [Map.Load, hkr, entry.load, hset]
    | live v0 =>
      simp only [entry.tryStore, hh, Option.some.injEq] at hs
      subst hs
      simp [Map.Load, hkr, entry.load, hset]

/-- Witness for C3: store then load on the empty map. -/
theorem C3_store_then_load_witness :
    (Map.Load ((Map.Store (initState Nat Nat) 0 5).getD (initState Nat Nat)) 0).1 =
      (some 5, true) :=
  C3_store_then_load Reachable.init rfl

/-- State after `Store(0, 1); Load(0)`: the load promotes the overlay, so key
0 is now live with value 1 in the read snapshot. -/
def stB : MapState Nat Nat := (Map.Load stA 0).2

/-- C1, refuted by the code: `LoadAndDelete`'s final test reads
`if !ok { return e.delete() }` where the upstream code has `if ok`.  On the
present key 0 (live with value 1, in the read snapshot of `stB`) it therefore
returns `(nil, false)`, performs no deletion, and the key stays present;
and on a key absent from every layer it dereferences the nil entry pointer
(a panic, modelled as result `none`) instead of returning `(nil, false)`. -/
theorem C1_loadAndDelete_inverted :
    alookup stB.readM 0 = some 0 ∧
    (Map.Load stB 0).1 = (some 1, true) ∧
    (Map.LoadAndDelete stB 0).1 = some (none, false) ∧
    (Map.LoadAndDelete stB 0).2 = stB ∧
    (Map.Load (Map.LoadAndDelete stB 0).2 0).1 = (some 1, true) ∧
    (Map.LoadAndDelete (initState Nat Nat) 5).1 = none :=
  ⟨rfl, rfl, rfl, rfl, rfl, rfl⟩

/-- State after `Store(0, 1); Load(0); Delete(0)`. -/
def stC : MapState Nat Nat := (Map.Delete stB 0).getD stB

/-- C2, refuted by the code: `Delete(0)` delegates to the inverted
`LoadAndDelete`, which returns without touching the present key, so the
subsequent `Load(0)` still answers `(1, true)` instead of `(_, false)`. -/
theorem C2_delete_keeps_key :
    Map.Delete stB 0 = some stC ∧
    stC = stB ∧
    (Map.Load stC 0).1 = (some 1, true) :=
  ⟨rfl, rfl, rfl⟩

end SyncMap
